import Mathlib

/-!
Verification of the abnormal-file-vault deduplicating file store against its
specification.  The repository ships only the browser client
(`fileService`, `FileList`, `FileSearchFilter`, `StorageStats`); the backend
store (Content Store, File Catalog, Stats Aggregator, Query Service) is
designed in the specification and modelled here from its text.  The client
functions `searchFiles`, `handleSearch` and `formatBytes` are embedded
directly from the source files.
-/

/-- Byte sequences are modelled as lists of naturals. -/
abbrev Bytes := List Nat

/-- Modelled from the spec: the Hashing Pipeline produces a cryptographic
content key that "uniquely identifies distinct byte content" (section 3).  The
backend is absent from the repository, so the digest is modelled as a perfect
hash: the byte sequence itself serves as its own key. -/
def contentKey (b : Bytes) : Bytes := b

/-- Modelled from the spec (section 3, FileRecord) and the client interface
`File` in src/unnamed/part_000: the logical, user-visible entity. -/
structure FileRecord where
  id : Nat
  original_filename : String
  file_type : String
  size : Nat
  uploaded_at : Nat
  content_key : Bytes
  is_duplicate : Bool
  original_file : Option Nat
  deriving Repr, DecidableEq

/-- Modelled from the spec (section 3, ContentBlob): the physical storage
unit; `stored` is the persisted byte content of the blob. -/
structure ContentBlob where
  content_key : Bytes
  byte_size : Nat
  ref_count : Nat
  stored : Bytes
  deriving Repr, DecidableEq

/-- Modelled from the spec (section 2): the combined state of the File
Catalog and the Content Store.  `next_id` generates fresh record ids and
`clock` generates strictly increasing upload timestamps. -/
structure Catalog where
  records : List FileRecord
  blobs : List ContentBlob
  next_id : Nat
  clock : Nat
  deriving Repr, DecidableEq

/-- The empty store. -/
def initCatalog : Catalog := { records := [], blobs := [], next_id := 0, clock := 0 }

/-- Increment a blob's reference count. -/
def incRef (b : ContentBlob) : ContentBlob := { b with ref_count := b.ref_count + 1 }

/-- Decrement a blob's reference count. -/
def decRef (b : ContentBlob) : ContentBlob := { b with ref_count := b.ref_count - 1 }

/-- Modelled from the spec (section 4.1 `put` on existing content): increment
the reference count of the blob holding the given content key. -/
def bumpKey (key : Bytes) : List ContentBlob → List ContentBlob
  | [] => []
  | b :: bs => if b.content_key = key then incRef b :: bs else b :: bumpKey key bs

/-- Modelled from the spec (section 4.1 `release`): decrement the reference
count of the blob holding the given key and reclaim it when the count
reaches zero (the spec recommends immediate reclamation, section 9). -/
def releaseKey (key : Bytes) : List ContentBlob → List ContentBlob
  | [] => []
  | b :: bs =>
    if b.content_key = key then
      if b.ref_count ≤ 1 then bs else decRef b :: bs
    else b :: releaseKey key bs

/-- Modelled from the spec (sections 4.1 `put` and 4.3 `create`): upload a
file.  If the content key already has a blob, the new record is a duplicate
pointing at the earliest record with that key and the blob's reference count
is incremented; otherwise a fresh blob with `ref_count = 1` is created. -/
def uploadFile (name ftype : String) (bytes : Bytes) (s : Catalog) :
    Catalog × FileRecord :=
  let key := contentKey bytes
  match s.blobs.find? (fun b => b.content_key = key) with
  | some blob =>
    let nr : FileRecord :=
      { id := s.next_id, original_filename := name, file_type := ftype,
        size := blob.byte_size, uploaded_at := s.clock, content_key := key,
        is_duplicate := true,
        original_file :=
          (s.records.find? (fun r => r.content_key = key)).map FileRecord.id }
    ({ records := s.records ++ [nr], blobs := bumpKey key s.blobs,
       next_id := s.next_id + 1, clock := s.clock + 1 }, nr)
  | none =>
    let nr : FileRecord :=
      { id := s.next_id, original_filename := name, file_type := ftype,
        size := bytes.length, uploaded_at := s.clock, content_key := key,
        is_duplicate := false, original_file := none }
    ({ records := s.records ++ [nr],
       blobs := s.blobs ++
         [{ content_key := key, byte_size := bytes.length, ref_count := 1,
            stored := bytes }],
       next_id := s.next_id + 1, clock := s.clock + 1 }, nr)

/-- Error taxonomy of the store (spec section 7); only `NotFound` is
reachable in this model. -/
inductive VaultError where
  | notFound
  deriving Repr, DecidableEq

/-- Remove the record with the given id, returning it and the remaining
records, or `none` when no record has that id. -/
def removeRecord (id : Nat) : List FileRecord → Option (FileRecord × List FileRecord)
  | [] => none
  | r :: rs =>
    if r.id = id then some (r, rs)
    else (removeRecord id rs).map fun p => (p.1, r :: p.2)

/-- Modelled from the spec (section 4.3 `delete`): remove the FileRecord and
release its content key; fails with `NotFound` when the id does not exist. -/
def deleteFile (id : Nat) (s : Catalog) : Except VaultError Catalog :=
  match removeRecord id s.records with
  | none => .error .notFound
  | some (r, rest) =>
    .ok { s with records := rest, blobs := releaseKey r.content_key s.blobs }

/-- Modelled from the spec (section 3, StorageStatsSnapshot) and the fields
rendered by StorageStats.tsx. -/
structure StorageStatsSnapshot where
  total_files_count : Nat
  original_files_count : Nat
  deduplicated_files_count : Nat
  total_physical_size : Nat
  total_logical_size : Nat
  saved_space : Int
  deriving Repr, DecidableEq

/-- Modelled from the spec (section 4.4): the stats snapshot, computed fresh
from the current state. -/
def snapshot (s : Catalog) : StorageStatsSnapshot :=
  { total_files_count := s.records.length
    original_files_count := s.blobs.length
    deduplicated_files_count := s.records.length - s.blobs.length
    total_physical_size := (s.blobs.map ContentBlob.byte_size).sum
    total_logical_size := (s.records.map FileRecord.size).sum
    saved_space := ((s.records.map FileRecord.size).sum : Int) -
      ((s.blobs.map ContentBlob.byte_size).sum : Int) }

/-- Modelled from the spec (section 6, Download): look up a record by id and
return the stored bytes of its content blob. -/
def downloadBytes (id : Nat) (s : Catalog) : Option Bytes :=
  (s.records.find? (fun r => r.id = id)).bind fun r =>
    (s.blobs.find? (fun b => b.content_key = r.content_key)).map ContentBlob.stored

/-- The ordering of listings (spec section 4.3 `list`): `uploaded_at`
descending, ties broken by ascending `id`. -/
def fileOrder (a b : FileRecord) : Prop :=
  b.uploaded_at < a.uploaded_at ∨
    (a.uploaded_at = b.uploaded_at ∧ a.id ≤ b.id)

instance : DecidableRel fileOrder := fun a b => by
  unfold fileOrder; infer_instance

instance : IsTotal FileRecord fileOrder :=
  ⟨fun a b => by unfold fileOrder; omega⟩

instance : IsTrans FileRecord fileOrder :=
  ⟨fun a b c h₁ h₂ => by
    unfold fileOrder at h₁ h₂ ⊢; omega⟩

/-- Modelled from the spec (section 4.3 `list`): all records ordered by
`uploaded_at` descending, stable for equal timestamps by `id`. -/
def listFiles (s : Catalog) : List FileRecord :=
  s.records.insertionSort fileOrder

/-- Lower-case a string character by character (model of JS toLowerCase as
used for case-insensitive matching). -/
def lowerChars (s : String) : List Char := s.toList.map Char.toLower

/-- Substring test on character lists. -/
def isSubstrOf (n : List Char) : List Char → Bool
  | [] => n.isEmpty
  | c :: h => n.isPrefixOf (c :: h) || isSubstrOf n h

/-- Case-insensitive substring match (spec section 4.5, `filename`
criterion). -/
def containsCI (needle hay : String) : Bool :=
  isSubstrOf (lowerChars needle) (lowerChars hay)

/-- Seconds per calendar day; `uploaded_at` timestamps are reduced to days
for the date criteria (spec section 4.5: calendar day granularity). -/
def secondsPerDay : Nat := 86400

/-- Calendar day of a timestamp. -/
def uploadDay (t : Nat) : Nat := t / secondsPerDay

/-- Modelled from the spec (sections 4.5 and 6): the optional search
criteria. -/
structure SearchCriteria where
  filename : Option String := none
  file_type : Option String := none
  size_min : Option Nat := none
  size_max : Option Nat := none
  date_from : Option Nat := none
  date_to : Option Nat := none
  deriving Repr, DecidableEq

/-- The request with no criteria provided. -/
def noCriteria : SearchCriteria := {}

/-- Check an optional criterion: absent criteria always pass. -/
def optCheck (o : Option α) (p : α → Bool) : Bool :=
  match o with
  | none => true
  | some a => p a

/-- Modelled from the spec (section 4.5): a record matches when every
provided criterion holds; all criteria are conjoined.  `file_type` uses
exact match (the spec allows exact or documented-prefix; exact is chosen
and documented here). -/
def matchesCriteria (c : SearchCriteria) (r : FileRecord) : Bool :=
  optCheck c.filename (fun q => containsCI q r.original_filename) &&
  optCheck c.file_type (fun t => r.file_type == t) &&
  optCheck c.size_min (fun m => decide (m ≤ r.size)) &&
  optCheck c.size_max (fun m => decide (r.size ≤ m)) &&
  optCheck c.date_from (fun d => decide (d ≤ uploadDay r.uploaded_at)) &&
  optCheck c.date_to (fun d => decide (uploadDay r.uploaded_at ≤ d))

/-- Modelled from the spec (section 4.3 `search`): filter the ordered
listing by the conjunction of the provided criteria. -/
def searchCatalog (c : SearchCriteria) (s : Catalog) : List FileRecord :=
  (listFiles s).filter (matchesCriteria c)

/-- The external operations that mutate the store (spec section 6). -/
inductive VaultOp where
  | upload (name ftype : String) (bytes : Bytes)
  | remove (id : Nat)
  deriving Repr, DecidableEq

/-- Apply one operation; a failing delete leaves the state unchanged (spec
section 7: `NotFound` is surfaced with no side effect). -/
def applyOp (s : Catalog) : VaultOp → Catalog
  | .upload n t b => (uploadFile n t b s).1
  | .remove id =>
    match deleteFile id s with
    | .ok s2 => s2
    | .error _ => s

/-- Run a sequence of operations from the empty store. -/
def runOps (ops : List VaultOp) : Catalog := ops.foldl applyOp initCatalog

/-- An upload request: declared filename, declared type, content bytes. -/
abbrev Upload := String × String × Bytes

/-- Run a sequence of uploads from the empty store. -/
def runUploads (us : List Upload) : Catalog :=
  runOps (us.map fun u => VaultOp.upload u.1 u.2.1 u.2.2)

/-- Number of records carrying a given content key. -/
def countKey (key : Bytes) (rs : List FileRecord) : Nat :=
  (rs.filter fun r => r.content_key = key).length

/-- The records carrying a given content key, in upload order. -/
def keyRecords (k : Bytes) (s : Catalog) : List FileRecord :=
  s.records.filter fun r => r.content_key = k

/-- The blobs carrying a given content key. -/
def keyBlobs (k : Bytes) (s : Catalog) : List ContentBlob :=
  s.blobs.filter fun b => b.content_key = k

/-- The reference count recorded for a content key, zero when no blob holds
the key. -/
def refCountOf (key : Bytes) (s : Catalog) : Nat :=
  ((s.blobs.find? fun b => b.content_key = key).map ContentBlob.ref_count).getD 0

/-! ### List helper lemmas -/

theorem countKey_append (key : Bytes) (l₁ l₂ : List FileRecord) :
    countKey key (l₁ ++ l₂) = countKey key l₁ + countKey key l₂ := by
  simp [countKey, List.filter_append]

theorem countKey_cons (key : Bytes) (r : FileRecord) (rs : List FileRecord) :
    countKey key (r :: rs) =
      (if r.content_key = key then 1 else 0) + countKey key rs := by
  by_cases h : r.content_key = key
  · simp [countKey, List.filter_cons, h]
    omega
  · simp [countKey, List.filter_cons, h]

theorem countKey_snoc (key : Bytes) (rs : List FileRecord) (r : FileRecord) :
    countKey key (rs ++ [r]) =
      countKey key rs + (if r.content_key = key then 1 else 0) := by
  by_cases h : r.content_key = key <;>
    simp [countKey, List.filter_append, List.filter_cons, h]

theorem countKey_eq_zero {key : Bytes} {rs : List FileRecord} :
    countKey key rs = 0 ↔ ∀ r ∈ rs, r.content_key ≠ key := by
  simp [countKey, List.length_eq_zero, List.filter_eq_nil_iff]

theorem find?_decomp {α : Type} {p : α → Bool} {l : List α} {a : α}
    (h : l.find? p = some a) :
    ∃ l₁ l₂, l = l₁ ++ a :: l₂ ∧ ∀ x ∈ l₁, p x = false := by
  induction l with
  | nil => simp at h
  | cons b bs ih =>
    by_cases hb : p b
    · rw [List.find?_cons_of_pos _ hb] at h
      cases h
      exact ⟨[], bs, rfl, by simp⟩
    · rw [List.find?_cons_of_neg _ hb] at h
      obtain ⟨l₁, l₂, rfl, hl₁⟩ := ih h
      refine ⟨b :: l₁, l₂, rfl, ?_⟩
      intro x hx
      rcases List.mem_cons.mp hx with rfl | hx
      · exact Bool.eq_false_iff.mpr hb
      · exact hl₁ x hx

theorem find?_append_none {α : Type} {p : α → Bool} {l₁ : List α} (l₂ : List α)
    (h : l₁.find? p = none) : (l₁ ++ l₂).find? p = l₂.find? p := by
  induction l₁ with
  | nil => rfl
  | cons a as ih =>
    rw [List.find?_cons] at h
    cases ha : p a with
    | true => rw [ha] at h; cases h
    | false =>
      rw [ha] at h
      simpa [List.find?_cons, ha] using ih h

theorem find?_of_filter_cons {α : Type} {p : α → Bool} {l t : List α} {a : α}
    (h : l.filter p = a :: t) : l.find? p = some a := by
  induction l with
  | nil => simp at h
  | cons b bs ih =>
    by_cases hb : p b
    · rw [List.filter_cons_of_pos hb] at h
      cases h
      exact List.find?_cons_of_pos _ hb
    · rw [List.filter_cons_of_neg hb] at h
      rw [List.find?_cons_of_neg _ hb]
      exact ih h

theorem bumpKey_append_first (key : Bytes) (l₁ l₂ : List ContentBlob)
    (b : ContentBlob) (h₁ : ∀ x ∈ l₁, x.content_key ≠ key)
    (hb : b.content_key = key) :
    bumpKey key (l₁ ++ b :: l₂) = l₁ ++ incRef b :: l₂ := by
  induction l₁ with
  | nil => simp [bumpKey, hb]
  | cons a l ih =>
    have ha : ¬ a.content_key = key := h₁ a (List.mem_cons_self a l)
    simp only [List.cons_append, bumpKey, if_neg ha]
    exact congrArg (a :: ·) (ih fun x hx => h₁ x (List.mem_cons_of_mem a hx))

theorem releaseKey_append_first (key : Bytes) (l₁ l₂ : List ContentBlob)
    (b : ContentBlob) (h₁ : ∀ x ∈ l₁, x.content_key ≠ key)
    (hb : b.content_key = key) :
    releaseKey key (l₁ ++ b :: l₂) =
      l₁ ++ (if b.ref_count ≤ 1 then l₂ else decRef b :: l₂) := by
  induction l₁ with
  | nil => simp [releaseKey, hb]
  | cons a l ih =>
    have ha : ¬ a.content_key = key := h₁ a (List.mem_cons_self a l)
    simp only [List.cons_append, releaseKey, if_neg ha]
    exact congrArg (a :: ·) (ih fun x hx => h₁ x (List.mem_cons_of_mem a hx))

theorem removeRecord_none {id : Nat} {l : List FileRecord} :
    removeRecord id l = none ↔ ∀ r ∈ l, r.id ≠ id := by
  induction l with
  | nil => simp [removeRecord]
  | cons a as ih =>
    by_cases ha : a.id = id
    · simp [removeRecord, ha]
    · simp [removeRecord, ha, Option.map_eq_none, ih]

theorem removeRecord_some {id : Nat} :
    ∀ {l rest : List FileRecord} {r : FileRecord},
      removeRecord id l = some (r, rest) →
      ∃ l₁ l₂, l = l₁ ++ r :: l₂ ∧ rest = l₁ ++ l₂ ∧ r.id = id ∧
        ∀ x ∈ l₁, x.id ≠ id := by
  intro l
  induction l with
  | nil => intro rest r h; simp [removeRecord] at h
  | cons a as ih =>
    intro rest r h
    by_cases ha : a.id = id
    · rw [removeRecord, if_pos ha] at h
      cases h
      exact ⟨[], as, rfl, rfl, ha, by simp⟩
    · rw [removeRecord, if_neg ha] at h
      rw [Option.map_eq_some'] at h
      obtain ⟨⟨r2, rest2⟩, h2, heq⟩ := h
      cases heq
      obtain ⟨l₁, l₂, rfl, rfl, hid, hl₁⟩ := ih h2
      refine ⟨a :: l₁, l₂, rfl, rfl, hid, ?_⟩
      intro x hx
      rcases List.mem_cons.mp hx with rfl | hx
      · exact ha
      · exact hl₁ x hx

theorem nodup_middle_ne {α β : Type} {f : α → β} {l₁ l₂ : List α} {a : α}
    (h : ((l₁ ++ a :: l₂).map f).Nodup) :
    ∀ x ∈ l₁ ++ l₂, f x ≠ f a := by
  rw [List.map_append, List.map_cons, List.nodup_append] at h
  obtain ⟨h₁, h₂, hdis⟩ := h
  intro x hx
  rcases List.mem_append.mp hx with hx | hx
  · intro hfx
    exact hdis (List.mem_map_of_mem f hx) (by simp [hfx])
  · intro hfx
    have : f a ∉ l₂.map f := (List.nodup_cons.mp h₂).1
    exact this (hfx ▸ List.mem_map_of_mem f hx)

/-! ### Characterizations of uploadFile and deleteFile -/

theorem uploadFile_some {s : Catalog} {blob : ContentBlob} {n t : String}
    {B : Bytes}
    (hfind : s.blobs.find? (fun b => b.content_key = contentKey B) = some blob) :
    uploadFile n t B s =
      ({ records := s.records ++
          [{ id := s.next_id, original_filename := n, file_type := t,
             size := blob.byte_size, uploaded_at := s.clock,
             content_key := contentKey B, is_duplicate := true,
             original_file := (s.records.find?
               (fun r => r.content_key = contentKey B)).map FileRecord.id }],
         blobs := bumpKey (contentKey B) s.blobs,
         next_id := s.next_id + 1, clock := s.clock + 1 },
       { id := s.next_id, original_filename := n, file_type := t,
         size := blob.byte_size, uploaded_at := s.clock,
         content_key := contentKey B, is_duplicate := true,
         original_file := (s.records.find?
           (fun r => r.content_key = contentKey B)).map FileRecord.id }) := by
  simp only [uploadFile, hfind]

theorem uploadFile_none {s : Catalog} {n t : String} {B : Bytes}
    (hfind : s.blobs.find? (fun b => b.content_key = contentKey B) = none) :
    uploadFile n t B s =
      ({ records := s.records ++
          [{ id := s.next_id, original_filename := n, file_type := t,
             size := B.length, uploaded_at := s.clock,
             content_key := contentKey B, is_duplicate := false,
             original_file := none }],
         blobs := s.blobs ++
           [{ content_key := contentKey B, byte_size := B.length,
              ref_count := 1, stored := B }],
         next_id := s.next_id + 1, clock := s.clock + 1 },
       { id := s.next_id, original_filename := n, file_type := t,
         size := B.length, uploaded_at := s.clock,
         content_key := contentKey B, is_duplicate := false,
         original_file := none }) := by
  simp only [uploadFile, hfind]

theorem deleteFile_error {id : Nat} {s : Catalog} :
    deleteFile id s = .error .notFound ↔ ∀ r ∈ s.records, r.id ≠ id := by
  rw [← removeRecord_none]
  unfold deleteFile
  cases h : removeRecord id s.records with
  | none => simp
  | some p => simp

theorem deleteFile_ok {id : Nat} {s s2 : Catalog}
    (h : deleteFile id s = .ok s2) :
    ∃ r l₁ l₂, s.records = l₁ ++ r :: l₂ ∧ r.id = id ∧ (∀ x ∈ l₁, x.id ≠ id) ∧
      s2 = { s with records := l₁ ++ l₂,
                    blobs := releaseKey r.content_key s.blobs } := by
  unfold deleteFile at h
  cases hrem : removeRecord id s.records with
  | none => rw [hrem] at h; cases h
  | some p =>
    obtain ⟨r, rest⟩ := p
    rw [hrem] at h
    cases h
    obtain ⟨l₁, l₂, hrec, hrest, hrid, hl₁⟩ := removeRecord_some hrem
    exact ⟨r, l₁, l₂, hrec, hrid, hl₁, by rw [hrest]⟩

/-! ### The state invariant -/

/-- The reachable-state invariant of the store: reference counts agree with
the catalog, record sizes agree with blob sizes, blobs store the bytes their
key digests, every record's key has a blob, keys and ids are unique, ids and
timestamps are below the generators, and every blob is referenced. -/
structure StoreInv (s : Catalog) : Prop where
  ref_counts : ∀ b ∈ s.blobs, b.ref_count = countKey b.content_key s.records
  sizes : ∀ b ∈ s.blobs, ∀ r ∈ s.records,
    r.content_key = b.content_key → r.size = b.byte_size
  stored_keys : ∀ b ∈ s.blobs, b.stored = b.content_key
  rec_blob : ∀ r ∈ s.records, ∃ b ∈ s.blobs, b.content_key = r.content_key
  keys_nodup : (s.blobs.map ContentBlob.content_key).Nodup
  ids_nodup : (s.records.map FileRecord.id).Nodup
  ids_lt : ∀ r ∈ s.records, r.id < s.next_id
  times_lt : ∀ r ∈ s.records, r.uploaded_at < s.clock
  pos_ref : ∀ b ∈ s.blobs, 0 < b.ref_count

theorem inv_init : StoreInv initCatalog := by
  constructor <;> simp [initCatalog]

theorem inv_upload {s : Catalog} (hs : StoreInv s) (n t : String) (B : Bytes) :
    StoreInv (uploadFile n t B s).1 := by
  cases hfind : s.blobs.find? (fun b => b.content_key = contentKey B) with
  | some blob =>
    have hb : blob.content_key = contentKey B := by
      simpa using List.find?_some hfind
    obtain ⟨m₁, m₂, hdec, hm₁⟩ := find?_decomp hfind
    have hm₁' : ∀ x ∈ m₁, x.content_key ≠ contentKey B := fun x hx =>
      of_decide_eq_false (hm₁ x hx)
    have hbump : bumpKey (contentKey B) s.blobs = m₁ ++ incRef blob :: m₂ := by
      rw [hdec]; exact bumpKey_append_first _ _ _ _ hm₁' hb
    have hkeys : ∀ x ∈ m₁ ++ m₂, x.content_key ≠ blob.content_key :=
      nodup_middle_ne (hdec ▸ hs.keys_nodup)
    rw [uploadFile_some hfind]
    constructor
    · -- ref_counts
      intro b' hb'
      simp only at hb'
      rw [hbump] at hb'
      simp only [countKey_snoc]
      rcases List.mem_append.mp hb' with h1 | h1
      · have hne : b'.content_key ≠ blob.content_key :=
          hkeys b' (List.mem_append_left _ h1)
        have hold : b' ∈ s.blobs := by
          rw [hdec]; exact List.mem_append_left _ h1
        rw [if_neg (fun h => hne (by rw [← h, hb]))]
        simpa using hs.ref_counts b' hold
      · rcases List.mem_cons.mp h1 with rfl | h1
        · have hmemb : blob ∈ s.blobs := by
            rw [hdec]; exact List.mem_append_right _ (List.mem_cons_self _ _)
          have hrc := hs.ref_counts blob hmemb
          rw [hb] at hrc
          simp [incRef, hb, hrc]
        · have hne : b'.content_key ≠ blob.content_key :=
            hkeys b' (List.mem_append_right _ h1)
          have hold : b' ∈ s.blobs := by
            rw [hdec]
            exact List.mem_append_right _ (List.mem_cons_of_mem _ h1)
          rw [if_neg (fun h => hne (by rw [← h, hb]))]
          simpa using hs.ref_counts b' hold
    · -- sizes
      intro b' hb' r' hr' hk
      simp only at hb' hr'
      rw [hbump] at hb'
      rcases List.mem_append.mp hr' with hr1 | hr1
      · -- old record
        rcases List.mem_append.mp hb' with h1 | h1
        · exact hs.sizes b' (by rw [hdec]; exact List.mem_append_left _ h1)
            r' hr1 hk
        · rcases List.mem_cons.mp h1 with rfl | h1
          · have hblob : blob ∈ s.blobs := by
              rw [hdec]
              exact List.mem_append_right _ (List.mem_cons_self _ _)
            have : r'.content_key = blob.content_key := hk
            exact hs.sizes blob hblob r' hr1 this
          · exact hs.sizes b'
              (by rw [hdec]
                  exact List.mem_append_right _ (List.mem_cons_of_mem _ h1))
              r' hr1 hk
      · -- the new record
        have hr'' : r'.content_key = contentKey B ∧ r'.size = blob.byte_size := by
          rcases List.mem_singleton.mp hr1 with rfl
          exact ⟨rfl, rfl⟩
        rcases List.mem_append.mp hb' with h1 | h1
        · exact absurd (hr''.1 ▸ hk ▸ rfl : b'.content_key = contentKey B)
            (fun h => hkeys b' (List.mem_append_left _ h1) (h.trans hb.symm))
        · rcases List.mem_cons.mp h1 with rfl | h1
          · exact hr''.2
          · exact absurd (hr''.1 ▸ hk ▸ rfl : b'.content_key = contentKey B)
              (fun h => hkeys b' (List.mem_append_right _ h1) (h.trans hb.symm))
    · -- stored_keys
      intro b' hb'
      simp only at hb'
      rw [hbump] at hb'
      rcases List.mem_append.mp hb' with h1 | h1
      · exact hs.stored_keys b' (by rw [hdec]; exact List.mem_append_left _ h1)
      · rcases List.mem_cons.mp h1 with rfl | h1
        · exact hs.stored_keys blob
            (by rw [hdec]
                exact List.mem_append_right _ (List.mem_cons_self _ _))
        · exact hs.stored_keys b'
            (by rw [hdec]
                exact List.mem_append_right _ (List.mem_cons_of_mem _ h1))
    · -- rec_blob
      intro r' hr'
      simp only at hr' ⊢
      rw [hbump]
      rcases List.mem_append.mp hr' with hr1 | hr1
      · obtain ⟨b0, hb0, hb0k⟩ := hs.rec_blob r' hr1
        rw [hdec] at hb0
        rcases List.mem_append.mp hb0 with h1 | h1
        · exact ⟨b0, List.mem_append_left _ h1, hb0k⟩
        · rcases List.mem_cons.mp h1 with rfl | h1
          · exact ⟨incRef b0,
              List.mem_append_right _ (List.mem_cons_self _ _), hb0k⟩
          · exact ⟨b0,
              List.mem_append_right _ (List.mem_cons_of_mem _ h1), hb0k⟩
      · rcases List.mem_singleton.mp hr1 with rfl
        exact ⟨incRef blob,
          List.mem_append_right _ (List.mem_cons_self _ _), hb⟩
    · -- keys_nodup
      simp only
      rw [hbump]
      have : (m₁ ++ incRef blob :: m₂).map ContentBlob.content_key =
          (m₁ ++ blob :: m₂).map ContentBlob.content_key := by
        simp [incRef]
      rw [this]
      exact hdec ▸ hs.keys_nodup
    · -- ids_nodup
      simp only [List.map_append, List.nodup_append]
      refine ⟨hs.ids_nodup, by simp, ?_⟩
      intro x hx hx2
      simp at hx2
      obtain ⟨r', hr', hrid⟩ := List.mem_map.mp hx
      subst hx2
      exact absurd (hs.ids_lt r' hr') (by omega)
    · -- ids_lt
      intro r' hr'
      simp only at hr' ⊢
      rcases List.mem_append.mp hr' with h1 | h1
      · have := hs.ids_lt r' h1; omega
      · rcases List.mem_singleton.mp h1 with rfl; simp
    · -- times_lt
      intro r' hr'
      simp only at hr' ⊢
      rcases List.mem_append.mp hr' with h1 | h1
      · have := hs.times_lt r' h1; omega
      · rcases List.mem_singleton.mp h1 with rfl; simp
    · -- pos_ref
      intro b' hb'
      simp only at hb'
      rw [hbump] at hb'
      rcases List.mem_append.mp hb' with h1 | h1
      · exact hs.pos_ref b' (by rw [hdec]; exact List.mem_append_left _ h1)
      · rcases List.mem_cons.mp h1 with rfl | h1
        · simp [incRef]
        · exact hs.pos_ref b'
            (by rw [hdec]
                exact List.mem_append_right _ (List.mem_cons_of_mem _ h1))
  | none =>
    have hnone : ∀ x ∈ s.blobs, x.content_key ≠ contentKey B := fun x hx h =>
      (List.find?_eq_none.mp hfind x hx) (by simp [h])
    have hcount0 : countKey (contentKey B) s.records = 0 := by
      rw [countKey_eq_zero]
      intro r hr hk
      obtain ⟨b0, hb0, hb0k⟩ := hs.rec_blob r hr
      exact hnone b0 hb0 (hb0k.trans hk)
    rw [uploadFile_none hfind]
    constructor
    · -- ref_counts
      intro b' hb'
      simp only at hb'
      simp only [countKey_snoc]
      rcases List.mem_append.mp hb' with h1 | h1
      · rw [if_neg (fun h => hnone b' h1 h.symm)]
        simpa using hs.ref_counts b' h1
      · rcases List.mem_singleton.mp h1 with rfl
        rw [hcount0]
        simp
    · -- sizes
      intro b' hb' r' hr' hk
      simp only at hb' hr'
      rcases List.mem_append.mp hb' with h1 | h1
      · rcases List.mem_append.mp hr' with hr1 | hr1
        · exact hs.sizes b' h1 r' hr1 hk
        · rcases List.mem_singleton.mp hr1 with rfl
          exact absurd hk (fun h => hnone b' h1 h.symm)
      · rcases List.mem_singleton.mp h1 with rfl
        rcases List.mem_append.mp hr' with hr1 | hr1
        · obtain ⟨b0, hb0, hb0k⟩ := hs.rec_blob r' hr1
          exact absurd (hb0k.trans hk) (hnone b0 hb0)
        · rcases List.mem_singleton.mp hr1 with rfl
          rfl
    · -- stored_keys
      intro b' hb'
      simp only at hb'
      rcases List.mem_append.mp hb' with h1 | h1
      · exact hs.stored_keys b' h1
      · rcases List.mem_singleton.mp h1 with rfl
        rfl
    · -- rec_blob
      intro r' hr'
      simp only at hr' ⊢
      rcases List.mem_append.mp hr' with hr1 | hr1
      · obtain ⟨b0, hb0, hb0k⟩ := hs.rec_blob r' hr1
        exact ⟨b0, List.mem_append_left _ hb0, hb0k⟩
      · rcases List.mem_singleton.mp hr1 with rfl
        exact ⟨_, List.mem_append_right _ (List.mem_singleton.mpr rfl), rfl⟩
    · -- keys_nodup
      simp only [List.map_append, List.nodup_append]
      refine ⟨hs.keys_nodup, by simp, ?_⟩
      intro x hx hx2
      simp at hx2
      obtain ⟨b0, hb0, hb0k⟩ := List.mem_map.mp hx
      subst hx2
      exact hnone b0 hb0 hb0k
    · -- ids_nodup
      simp only [List.map_append, List.nodup_append]
      refine ⟨hs.ids_nodup, by simp, ?_⟩
      intro x hx hx2
      simp at hx2
      obtain ⟨r', hr', hrid⟩ := List.mem_map.mp hx
      subst hx2
      exact absurd (hs.ids_lt r' hr') (by omega)
    · -- ids_lt
      intro r' hr'
      simp only at hr' ⊢
      rcases List.mem_append.mp hr' with h1 | h1
      · have := hs.ids_lt r' h1; omega
      · rcases List.mem_singleton.mp h1 with rfl; simp
    · -- times_lt
      intro r' hr'
      simp only at hr' ⊢
      rcases List.mem_append.mp hr' with h1 | h1
      · have := hs.times_lt r' h1; omega
      · rcases List.mem_singleton.mp h1 with rfl; simp
    · -- pos_ref
      intro b' hb'
      simp only at hb'
      rcases List.mem_append.mp hb' with h1 | h1
      · exact hs.pos_ref b' h1
      · rcases List.mem_singleton.mp h1 with rfl
        simp

theorem countKey_pos {key : Bytes} {rs : List FileRecord} :
    0 < countKey key rs ↔ ∃ r ∈ rs, r.content_key = key := by
  constructor
  · intro h
    by_contra hc
    push_neg at hc
    rw [countKey_eq_zero.mpr hc] at h
    omega
  · rintro ⟨x, hx, hk⟩
    exact List.length_pos.mpr
      (List.ne_nil_of_mem (List.mem_filter.mpr ⟨hx, by simp [hk]⟩))

theorem inv_delete {s s2 : Catalog} (hs : StoreInv s) {id : Nat}
    (h : deleteFile id s = .ok s2) : StoreInv s2 := by
  obtain ⟨r, l₁, l₂, hrec, hrid, hl₁, rfl⟩ := deleteFile_ok h
  have hrmem : r ∈ s.records := by
    rw [hrec]; exact List.mem_append_right _ (List.mem_cons_self _ _)
  obtain ⟨b0, hb0, hb0k⟩ := hs.rec_blob r hrmem
  have hsome : (s.blobs.find? (fun b => b.content_key = r.content_key)).isSome := by
    rw [List.find?_isSome]; exact ⟨b0, hb0, by simp [hb0k]⟩
  obtain ⟨blob, hfind⟩ := Option.isSome_iff_exists.mp hsome
  have hbk : blob.content_key = r.content_key := by
    simpa using List.find?_some hfind
  obtain ⟨m₁, m₂, hdec, hm₁⟩ := find?_decomp hfind
  have hm₁' : ∀ x ∈ m₁, x.content_key ≠ r.content_key := fun x hx =>
    of_decide_eq_false (hm₁ x hx)
  have hrel : releaseKey r.content_key s.blobs =
      m₁ ++ (if blob.ref_count ≤ 1 then m₂ else decRef blob :: m₂) := by
    rw [hdec]; exact releaseKey_append_first _ _ _ _ hm₁' hbk
  have hkeys : ∀ x ∈ m₁ ++ m₂, x.content_key ≠ blob.content_key :=
    nodup_middle_ne (hdec ▸ hs.keys_nodup)
  have holdmem : ∀ b'' ∈ m₁ ++ m₂, b'' ∈ s.blobs := by
    intro b'' hb''
    rw [hdec]
    rcases List.mem_append.mp hb'' with h1 | h1
    · exact List.mem_append_left _ h1
    · exact List.mem_append_right _ (List.mem_cons_of_mem _ h1)
  have hmem' : ∀ b', b' ∈ releaseKey r.content_key s.blobs →
      b' ∈ m₁ ++ m₂ ∨ (b' = decRef blob ∧ 1 < blob.ref_count) := by
    intro b' hb'
    rw [hrel] at hb'
    by_cases hle : blob.ref_count ≤ 1
    · rw [if_pos hle] at hb'; left; exact hb'
    · rw [if_neg hle] at hb'
      rcases List.mem_append.mp hb' with h1 | h1
      · left; exact List.mem_append_left _ h1
      · rcases List.mem_cons.mp h1 with rfl | h1
        · right; exact ⟨rfl, by omega⟩
        · left; exact List.mem_append_right _ h1
  have hsurv₁ : ∀ b'' ∈ m₁ ++ m₂, b'' ∈ releaseKey r.content_key s.blobs := by
    intro b'' hb''
    rw [hrel]
    rcases List.mem_append.mp hb'' with h1 | h1
    · exact List.mem_append_left _ h1
    · refine List.mem_append_right _ ?_
      by_cases hle : blob.ref_count ≤ 1
      · rw [if_pos hle]; exact h1
      · rw [if_neg hle]; exact List.mem_cons_of_mem _ h1
  have hsurv₂ : 1 < blob.ref_count →
      decRef blob ∈ releaseKey r.content_key s.blobs := by
    intro hlt
    rw [hrel, if_neg (by omega)]
    exact List.mem_append_right _ (List.mem_cons_self _ _)
  have hcnt : ∀ k, countKey k (l₁ ++ l₂) +
      (if r.content_key = k then 1 else 0) = countKey k s.records := by
    intro k
    rw [hrec, countKey_append, countKey_append, countKey_cons]
    omega
  have hrecmem : ∀ r' ∈ l₁ ++ l₂, r' ∈ s.records := by
    intro r' hr'
    rw [hrec]
    rcases List.mem_append.mp hr' with h1 | h1
    · exact List.mem_append_left _ h1
    · exact List.mem_append_right _ (List.mem_cons_of_mem _ h1)
  have hblobmem : blob ∈ s.blobs := by
    rw [hdec]; exact List.mem_append_right _ (List.mem_cons_self _ _)
  constructor
  all_goals dsimp only
  · -- ref_counts
    intro b' hb'
    rcases hmem' b' hb' with hold | ⟨rfl, hlt⟩
    · have hne : b'.content_key ≠ blob.content_key := hkeys b' hold
      have := hs.ref_counts b' (holdmem b' hold)
      have hc := hcnt b'.content_key
      rw [if_neg (fun hh => hne (by rw [← hh, hbk]))] at hc
      omega
    · have hrc := hs.ref_counts blob hblobmem
      have hc := hcnt blob.content_key
      rw [if_pos hbk.symm] at hc
      simp only [decRef]
      omega
  · -- sizes
    intro b' hb' r' hr' hk
    have hr'mem := hrecmem r' hr'
    rcases hmem' b' hb' with hold | ⟨rfl, hlt⟩
    · exact hs.sizes b' (holdmem b' hold) r' hr'mem hk
    · exact hs.sizes blob hblobmem r' hr'mem hk
  · -- stored_keys
    intro b' hb'
    rcases hmem' b' hb' with hold | ⟨rfl, hlt⟩
    · exact hs.stored_keys b' (holdmem b' hold)
    · exact hs.stored_keys blob hblobmem
  · -- rec_blob
    intro r' hr'
    obtain ⟨b0', hb0', hb0'k⟩ := hs.rec_blob r' (hrecmem r' hr')
    rw [hdec] at hb0'
    rcases List.mem_append.mp hb0' with h1 | h1
    · exact ⟨b0', hsurv₁ b0' (List.mem_append_left _ h1), hb0'k⟩
    · rcases List.mem_cons.mp h1 with rfl | h1
      · -- the record's blob is the released one; it must survive
        have hk' : r'.content_key = r.content_key := by rw [← hb0'k, hbk]
        have hpos : 0 < countKey r.content_key (l₁ ++ l₂) :=
          countKey_pos.mpr ⟨r', hr', hk'⟩
        have hrc := hs.ref_counts b0' hblobmem
        have hc := hcnt b0'.content_key
        rw [if_pos hbk.symm] at hc
        have hlt : 1 < b0'.ref_count := by
          rw [hbk] at hrc hc
          omega
        exact ⟨decRef b0', hsurv₂ hlt, hb0'k⟩
      · exact ⟨b0',
          hsurv₁ b0' (List.mem_append_right _ h1), hb0'k⟩
  · -- keys_nodup
    have hnd := hdec ▸ hs.keys_nodup
    rw [hrel]
    by_cases hle : blob.ref_count ≤ 1
    · rw [if_pos hle]
      refine List.Nodup.sublist (List.Sublist.map _ ?_) hnd
      exact (List.sublist_cons_self blob m₂).append_left m₁
    · rw [if_neg hle]
      have : (m₁ ++ decRef blob :: m₂).map ContentBlob.content_key =
          (m₁ ++ blob :: m₂).map ContentBlob.content_key := by
        simp [decRef]
      rw [this]
      exact hnd
  · -- ids_nodup
    have hnd := hrec ▸ hs.ids_nodup
    refine List.Nodup.sublist (List.Sublist.map _ ?_) hnd
    exact (List.sublist_cons_self r l₂).append_left l₁
  · -- ids_lt
    intro r' hr'
    exact hs.ids_lt r' (hrecmem r' hr')
  · -- times_lt
    intro r' hr'
    exact hs.times_lt r' (hrecmem r' hr')
  · -- pos_ref
    intro b' hb'
    rcases hmem' b' hb' with hold | ⟨rfl, hlt⟩
    · exact hs.pos_ref b' (holdmem b' hold)
    · simp only [decRef]
      omega

theorem inv_applyOp {s : Catalog} (hs : StoreInv s) (op : VaultOp) :
    StoreInv (applyOp s op) := by
  cases op with
  | upload n t b => exact inv_upload hs n t b
  | remove id =>
    show StoreInv (match deleteFile id s with
      | .ok s2 => s2
      | .error _ => s)
    cases h : deleteFile id s with
    | ok s2 => exact inv_delete hs h
    | error e => exact hs

theorem inv_foldl (ops : List VaultOp) :
    ∀ s, StoreInv s → StoreInv (ops.foldl applyOp s) := by
  induction ops with
  | nil => intro s hs; exact hs
  | cons o os ih => intro s hs; exact ih _ (inv_applyOp hs o)

theorem inv_runOps (ops : List VaultOp) : StoreInv (runOps ops) :=
  inv_foldl ops initCatalog inv_init

/-! ### Accounting: physical is bounded by logical size -/

theorem sum_map_filter_partition {α : Type} (f : α → Nat) (p : α → Bool)
    (l : List α) :
    ((l.filter p).map f).sum + ((l.filter fun a => !p a).map f).sum =
      (l.map f).sum := by
  induction l with
  | nil => simp
  | cons a as ih =>
    cases hpa : p a <;> simp [List.filter_cons, hpa] <;> omega

theorem physical_le_logical_aux :
    ∀ (bs : List ContentBlob) (rs : List FileRecord),
      (bs.map ContentBlob.content_key).Nodup →
      (∀ b ∈ bs, 0 < countKey b.content_key rs) →
      (∀ b ∈ bs, ∀ r ∈ rs, r.content_key = b.content_key →
        r.size = b.byte_size) →
      (bs.map ContentBlob.byte_size).sum ≤ (rs.map FileRecord.size).sum := by
  intro bs
  induction bs with
  | nil => intro rs _ _ _; simp
  | cons b bs ih =>
    intro rs hnd hpos hsz
    have hpart := sum_map_filter_partition FileRecord.size
      (fun r => decide (r.content_key = b.content_key)) rs
    -- the records matching b's key contribute at least b.byte_size
    have hposb : 0 < countKey b.content_key rs :=
      hpos b (List.mem_cons_self _ _)
    obtain ⟨r0, hr0, hr0k⟩ := countKey_pos.mp hposb
    have hr0mem : r0 ∈ rs.filter fun r => decide (r.content_key = b.content_key) :=
      List.mem_filter.mpr ⟨hr0, by simp [hr0k]⟩
    have hge : b.byte_size ≤
        ((rs.filter fun r => decide (r.content_key = b.content_key)).map
          FileRecord.size).sum := by
      have hsz0 : r0.size = b.byte_size :=
        hsz b (List.mem_cons_self _ _) r0 hr0 hr0k
      have := List.single_le_sum (fun (x : Nat) _ => Nat.zero_le x) r0.size
        (List.mem_map_of_mem FileRecord.size hr0mem)
      omega
    -- recursive step on the remaining keys over the non-matching records
    have hne : ∀ b' ∈ bs, b'.content_key ≠ b.content_key := by
      intro b' hb'
      have := @nodup_middle_ne ContentBlob Bytes ContentBlob.content_key
        [] bs b (by simpa using hnd)
      exact this b' (by simpa using hb')
    have hrec : (bs.map ContentBlob.byte_size).sum ≤
        ((rs.filter fun r => !decide (r.content_key = b.content_key)).map
          FileRecord.size).sum := by
      refine ih _ ?_ ?_ ?_
      · exact (List.nodup_cons.mp (by simpa using hnd)).2
      · intro b' hb'
        obtain ⟨r1, hr1, hr1k⟩ := countKey_pos.mp (hpos b' (List.mem_cons_of_mem _ hb'))
        refine countKey_pos.mpr ⟨r1, ?_, hr1k⟩
        refine List.mem_filter.mpr ⟨hr1, ?_⟩
        simp only [Bool.not_eq_true', decide_eq_false_iff_not]
        rw [hr1k]
        exact hne b' hb'
      · intro b' hb' r1 hr1 hk
        exact hsz b' (List.mem_cons_of_mem _ hb') r1
          (List.mem_filter.mp hr1).1 hk
    simp only [List.map_cons, List.sum_cons]
    omega

theorem physical_le_logical {s : Catalog} (hs : StoreInv s) :
    (s.blobs.map ContentBlob.byte_size).sum ≤
      (s.records.map FileRecord.size).sum := by
  refine physical_le_logical_aux s.blobs s.records hs.keys_nodup ?_ hs.sizes
  intro b hb
  have := hs.ref_counts b hb
  have := hs.pos_ref b hb
  omega

theorem blobs_length_eq_dedup {s : Catalog} (hs : StoreInv s) :
    s.blobs.length = (s.records.map FileRecord.content_key).dedup.length := by
  have h1 : (s.blobs.map ContentBlob.content_key).toFinset =
      (s.records.map FileRecord.content_key).toFinset := by
    ext k
    simp only [List.mem_toFinset, List.mem_map]
    constructor
    · rintro ⟨b, hb, rfl⟩
      have hpos : 0 < countKey b.content_key s.records := by
        have h1 := hs.ref_counts b hb
        have h2 := hs.pos_ref b hb
        omega
      obtain ⟨r, hr, hk⟩ := countKey_pos.mp hpos
      exact ⟨r, hr, hk⟩
    · rintro ⟨r, hr, rfl⟩
      obtain ⟨b, hb, hk⟩ := hs.rec_blob r hr
      exact ⟨b, hb, hk⟩
  have h2 : (s.blobs.map ContentBlob.content_key).toFinset.card =
      (s.blobs.map ContentBlob.content_key).length :=
    List.toFinset_card_of_nodup hs.keys_nodup
  have h3 := List.card_toFinset (s.records.map FileRecord.content_key)
  rw [h1, h3] at h2
  rw [h2, List.length_map]

theorem optCheck_eq_true {α : Type} {o : Option α} {p : α → Bool} :
    optCheck o p = true ↔ ∀ a ∈ o, p a = true := by
  cases o <;> simp [optCheck]

theorem matchesCriteria_iff (c : SearchCriteria) (r : FileRecord) :
    matchesCriteria c r = true ↔
      (∀ q ∈ c.filename, containsCI q r.original_filename = true) ∧
      (∀ t ∈ c.file_type, r.file_type = t) ∧
      (∀ m ∈ c.size_min, m ≤ r.size) ∧
      (∀ m ∈ c.size_max, r.size ≤ m) ∧
      (∀ d ∈ c.date_from, d ≤ uploadDay r.uploaded_at) ∧
      (∀ d ∈ c.date_to, uploadDay r.uploaded_at ≤ d) := by
  simp only [matchesCriteria, Bool.and_eq_true, optCheck_eq_true, beq_iff_eq,
    decide_eq_true_eq, Option.mem_def]
  tauto

/-- C2: in every state reachable by any sequence of create and delete
operations, the stats snapshot satisfies
`saved_space = total_logical_size − total_physical_size`,
`total_physical_size ≤ total_logical_size`, and `saved_space ≥ 0`. -/
theorem c2_accounting_invariant (ops : List VaultOp) :
    (snapshot (runOps ops)).saved_space =
      ((snapshot (runOps ops)).total_logical_size : Int) -
        ((snapshot (runOps ops)).total_physical_size : Int) ∧
    (snapshot (runOps ops)).total_physical_size ≤
      (snapshot (runOps ops)).total_logical_size ∧
    0 ≤ (snapshot (runOps ops)).saved_space := by
  have hle := physical_le_logical (inv_runOps ops)
  refine ⟨rfl, hle, ?_⟩
  simp only [snapshot]
  omega

/-- C7: for every catalog state, the stats snapshot satisfies
`total_files_count` = number of FileRecords, `original_files_count` = number
of ContentBlobs = number of distinct content keys among the records, and
`deduplicated_files_count = total_files_count − original_files_count`. -/
theorem c7_stats_counts (ops : List VaultOp) :
    (snapshot (runOps ops)).total_files_count = (runOps ops).records.length ∧
    (snapshot (runOps ops)).original_files_count = (runOps ops).blobs.length ∧
    (snapshot (runOps ops)).original_files_count =
      ((runOps ops).records.map FileRecord.content_key).dedup.length ∧
    (snapshot (runOps ops)).deduplicated_files_count =
      (snapshot (runOps ops)).total_files_count -
        (snapshot (runOps ops)).original_files_count := by
  exact ⟨rfl, rfl, blobs_length_eq_dedup (inv_runOps ops), rfl⟩

/-- C5: for every catalog state, `list()` returns all FileRecords ordered by
`uploaded_at` descending with ties broken by `id`, and every `search()`
result is ordered the same way. -/
theorem c5_listing_order (s : Catalog) (c : SearchCriteria) :
    List.Sorted fileOrder (listFiles s) ∧
    (listFiles s).Perm s.records ∧
    List.Sorted fileOrder (searchCatalog c s) := by
  refine ⟨List.sorted_insertionSort fileOrder s.records,
    List.perm_insertionSort fileOrder s.records, ?_⟩
  exact List.Pairwise.filter _ (List.sorted_insertionSort fileOrder s.records)

/-- C4: a FileRecord is in a search result iff it is in the catalog and
satisfies every provided criterion — case-insensitive substring on
`original_filename`, exact `file_type`, inclusive size bounds, inclusive
calendar-day bounds on `uploaded_at` — and a search with no criteria returns
exactly the result of `list()` (an empty result being an ordinary empty
sequence, since `searchCatalog` is total). -/
theorem c4_search_criteria (s : Catalog) (c : SearchCriteria) (r : FileRecord) :
    (r ∈ searchCatalog c s ↔
      r ∈ s.records ∧
      (∀ q ∈ c.filename, containsCI q r.original_filename = true) ∧
      (∀ t ∈ c.file_type, r.file_type = t) ∧
      (∀ m ∈ c.size_min, m ≤ r.size) ∧
      (∀ m ∈ c.size_max, r.size ≤ m) ∧
      (∀ d ∈ c.date_from, d ≤ uploadDay r.uploaded_at) ∧
      (∀ d ∈ c.date_to, uploadDay r.uploaded_at ≤ d)) ∧
    searchCatalog noCriteria s = listFiles s := by
  constructor
  · constructor
    · intro hmem
      have h1 := List.mem_filter.mp hmem
      have h2 := (matchesCriteria_iff c r).mp h1.2
      have h3 : r ∈ s.records := by
        simpa [listFiles] using h1.1
      exact ⟨h3, h2⟩
    · rintro ⟨hmem, hconds⟩
      refine List.mem_filter.mpr ⟨?_, (matchesCriteria_iff c r).mpr hconds⟩
      simpa [listFiles] using hmem
  · rw [searchCatalog]
    exact List.filter_eq_self.mpr fun a _ => rfl

/-- C3: uploading bytes `B` into any reachable state and then downloading the
content of the resulting FileRecord returns exactly `B`. -/
theorem c3_roundtrip (ops : List VaultOp) (n t : String) (B : Bytes) :
    downloadBytes (uploadFile n t B (runOps ops)).2.id
      (uploadFile n t B (runOps ops)).1 = some B := by
  have hs := inv_runOps ops
  have hidnone : (runOps ops).records.find?
      (fun r => r.id = (runOps ops).next_id) = none :=
    List.find?_eq_none.mpr fun x hx => by
      simpa using Nat.ne_of_lt (hs.ids_lt x hx)
  cases hfind : (runOps ops).blobs.find?
      (fun b => b.content_key = contentKey B) with
  | some blob =>
    have hb : blob.content_key = contentKey B := by
      simpa using List.find?_some hfind
    obtain ⟨m₁, m₂, hdec, hm₁⟩ := find?_decomp hfind
    have hm₁' : ∀ x ∈ m₁, x.content_key ≠ contentKey B := fun x hx =>
      of_decide_eq_false (hm₁ x hx)
    have hbump : bumpKey (contentKey B) (runOps ops).blobs =
        m₁ ++ incRef blob :: m₂ := by
      rw [hdec]; exact bumpKey_append_first _ _ _ _ hm₁' hb
    rw [uploadFile_some hfind]
    unfold downloadBytes
    dsimp only
    rw [find?_append_none _ hidnone]
    rw [List.find?_cons_of_pos _ (by simp)]
    dsimp only [Option.bind]
    rw [hbump]
    rw [find?_append_none _ (List.find?_eq_none.mpr fun x hx => by
      simpa using hm₁' x hx)]
    rw [List.find?_cons_of_pos _ (by simp [incRef, hb])]
    have hst : blob.stored = contentKey B := by
      rw [hs.stored_keys blob (by
        rw [hdec]; exact List.mem_append_right _ (List.mem_cons_self _ _)), hb]
    simp [incRef, hst, contentKey]
  | none =>
    rw [uploadFile_none hfind]
    unfold downloadBytes
    dsimp only
    rw [find?_append_none _ hidnone]
    rw [List.find?_cons_of_pos _ (by simp)]
    dsimp only [Option.bind]
    rw [find?_append_none _ hfind]
    rw [List.find?_cons_of_pos _ (by simp)]
    simp

/-- C6: `delete(id)` fails with `NotFound` exactly when no FileRecord has
that id, failure leaves the state unchanged, and success removes exactly
that FileRecord and decreases the reference count recorded for its content
key by one (the count reading zero once the blob is reclaimed). -/
theorem c6_delete_semantics (ops : List VaultOp) (id : Nat) :
    ((deleteFile id (runOps ops) = Except.error VaultError.notFound) ↔
      ∀ r ∈ (runOps ops).records, r.id ≠ id) ∧
    (deleteFile id (runOps ops) = Except.error VaultError.notFound →
      applyOp (runOps ops) (VaultOp.remove id) = runOps ops) ∧
    (∀ s2, deleteFile id (runOps ops) = Except.ok s2 →
      ∃ r l₁ l₂, (runOps ops).records = l₁ ++ r :: l₂ ∧ r.id = id ∧
        (∀ x ∈ l₁ ++ l₂, x.id ≠ id) ∧
        s2.records = l₁ ++ l₂ ∧
        s2.blobs = releaseKey r.content_key (runOps ops).blobs ∧
        refCountOf r.content_key s2 + 1 =
          refCountOf r.content_key (runOps ops) ∧
        s2.next_id = (runOps ops).next_id ∧ s2.clock = (runOps ops).clock) := by
  have hs := inv_runOps ops
  refine ⟨deleteFile_error, ?_, ?_⟩
  · intro h
    show (match deleteFile id (runOps ops) with
      | .ok s2 => s2
      | .error _ => runOps ops) = runOps ops
    rw [h]
  · intro s2 h
    obtain ⟨r, l₁, l₂, hrec, hrid, hl₁, rfl⟩ := deleteFile_ok h
    have hids : ∀ x ∈ l₁ ++ l₂, x.id ≠ id := by
      intro x hx
      have := nodup_middle_ne (hrec ▸ hs.ids_nodup) x hx
      rw [hrid] at this
      exact this
    refine ⟨r, l₁, l₂, hrec, hrid, hids, rfl, rfl, ?_, rfl, rfl⟩
    -- reference count decreases by one
    have hrmem : r ∈ (runOps ops).records := by
      rw [hrec]; exact List.mem_append_right _ (List.mem_cons_self _ _)
    obtain ⟨b0, hb0, hb0k⟩ := hs.rec_blob r hrmem
    have hsome : ((runOps ops).blobs.find?
        (fun b => b.content_key = r.content_key)).isSome := by
      rw [List.find?_isSome]; exact ⟨b0, hb0, by simp [hb0k]⟩
    obtain ⟨blob, hfind⟩ := Option.isSome_iff_exists.mp hsome
    have hbk : blob.content_key = r.content_key := by
      simpa using List.find?_some hfind
    obtain ⟨m₁, m₂, hdec, hm₁⟩ := find?_decomp hfind
    have hm₁' : ∀ x ∈ m₁, x.content_key ≠ r.content_key := fun x hx =>
      of_decide_eq_false (hm₁ x hx)
    have hrel : releaseKey r.content_key (runOps ops).blobs =
        m₁ ++ (if blob.ref_count ≤ 1 then m₂ else decRef blob :: m₂) := by
      rw [hdec]; exact releaseKey_append_first _ _ _ _ hm₁' hbk
    have hkeys : ∀ x ∈ m₁ ++ m₂, x.content_key ≠ blob.content_key :=
      nodup_middle_ne (hdec ▸ hs.keys_nodup)
    have hm₂none : m₂.find? (fun b => b.content_key = r.content_key) = none :=
      List.find?_eq_none.mpr fun x hx => by
        simpa [hbk] using hkeys x (List.mem_append_right _ hx)
    have hm₁none : m₁.find? (fun b => b.content_key = r.content_key) = none :=
      List.find?_eq_none.mpr fun x hx => by simpa using hm₁' x hx
    have hblobmem : blob ∈ (runOps ops).blobs := by
      rw [hdec]; exact List.mem_append_right _ (List.mem_cons_self _ _)
    have hpos := hs.pos_ref blob hblobmem
    unfold refCountOf
    dsimp only
    rw [hfind, hrel]
    by_cases hle : blob.ref_count ≤ 1
    · rw [if_pos hle, find?_append_none _ hm₁none, hm₂none]
      simp only [Option.map_none', Option.getD_none, Option.map_some',
        Option.getD_some]
      omega
    · rw [if_neg hle, find?_append_none _ hm₁none,
        List.find?_cons_of_pos _ (by simp [decRef, hbk])]
      simp only [Option.map_some', Option.getD_some, decRef]
      omega

/-! ### Deduplication shape of upload-only histories -/

/-- The dedup linkage shape for one byte content: either the content is
absent (no record, no blob), or exactly one blob holds it, its reference
count equals the number of records with the key, the first such record is
not a duplicate, and every later one is a duplicate pointing at the first,
uploaded strictly later. -/
def DedupState (B : Bytes) (s : Catalog) : Prop :=
  (keyRecords (contentKey B) s = [] ∧ keyBlobs (contentKey B) s = []) ∨
  (∃ blob r0 rest,
     keyBlobs (contentKey B) s = [blob] ∧
     keyRecords (contentKey B) s = r0 :: rest ∧
     blob.ref_count = rest.length + 1 ∧
     r0.is_duplicate = false ∧
     (∀ r ∈ rest, r.is_duplicate = true ∧ r.original_file = some r0.id ∧
        r0.uploaded_at < r.uploaded_at))

theorem dedup_step {B : Bytes} {s : Catalog} (hs : StoreInv s)
    (hd : DedupState B s) (n t : String) (B' : Bytes) :
    DedupState B (uploadFile n t B' s).1 ∧
    (keyRecords (contentKey B) (uploadFile n t B' s).1).length =
      (keyRecords (contentKey B) s).length + (if B' = B then 1 else 0) := by
  by_cases hBB : B' = B
  · subst hBB
    cases hfind : s.blobs.find? (fun b => b.content_key = contentKey B') with
    | none =>
      rcases hd with ⟨hr, hb⟩ | ⟨blob, r0, rest, hkb, hkr, hrc, hdup, hrest⟩
      · rw [uploadFile_none hfind]
        constructor
        · refine Or.inr
            ⟨{ content_key := contentKey B', byte_size := B'.length,
               ref_count := 1, stored := B' },
             { id := s.next_id, original_filename := n, file_type := t,
               size := B'.length, uploaded_at := s.clock,
               content_key := contentKey B', is_duplicate := false,
               original_file := none },
             [], ?_, ?_, rfl, rfl, by simp⟩
          · dsimp only
            simp only [keyBlobs, List.filter_append]
            rw [show s.blobs.filter
              (fun b => decide (b.content_key = contentKey B')) = [] from hb]
            simp
          · dsimp only
            simp only [keyRecords, List.filter_append]
            rw [show s.records.filter
              (fun r => decide (r.content_key = contentKey B')) = [] from hr]
            simp
        · dsimp only
          simp only [keyRecords, List.filter_append]
          rw [show s.records.filter
            (fun r => decide (r.content_key = contentKey B')) = [] from hr]
          simp
      · exfalso
        have hmem : blob ∈ keyBlobs (contentKey B') s := by
          rw [hkb]; exact List.mem_singleton.mpr rfl
        have hmem2 := List.mem_filter.mp hmem
        exact List.find?_eq_none.mp hfind blob hmem2.1 hmem2.2
    | some blob =>
      rcases hd with ⟨hr, hb⟩ | ⟨blob₀, r0, rest, hkb, hkr, hrc, hdup, hrest⟩
      · exfalso
        have hbmem := List.mem_of_find?_eq_some hfind
        have hpb := List.find?_some hfind
        have hmm : blob ∈ keyBlobs (contentKey B') s :=
          List.mem_filter.mpr ⟨hbmem, hpb⟩
        rw [hb] at hmm
        exact List.not_mem_nil blob hmm
      · obtain ⟨m₁, m₂, hdec, hm₁⟩ := find?_decomp hfind
        have hm₁' : ∀ x ∈ m₁, x.content_key ≠ contentKey B' := fun x hx =>
          of_decide_eq_false (hm₁ x hx)
        have hpb : blob.content_key = contentKey B' := by
          simpa using List.find?_some hfind
        have hbump : bumpKey (contentKey B') s.blobs =
            m₁ ++ incRef blob :: m₂ := by
          rw [hdec]; exact bumpKey_append_first _ _ _ _ hm₁' hpb
        have hfm₁ : m₁.filter
            (fun b => decide (b.content_key = contentKey B')) = [] :=
          List.filter_eq_nil_iff.mpr fun a ha => by simpa using hm₁' a ha
        have hsplit : keyBlobs (contentKey B') s =
            blob :: m₂.filter
              (fun b => decide (b.content_key = contentKey B')) := by
          rw [keyBlobs, hdec, List.filter_append, hfm₁,
            List.filter_cons_of_pos (by simp [hpb])]
          simp
        rw [hkb] at hsplit
        have hpair : blob = blob₀ ∧
            m₂.filter (fun b => decide (b.content_key = contentKey B')) = [] := by
          have h := hsplit.symm
          rwa [List.cons.injEq] at h
        have hblob₀ : blob₀ = blob := hpair.1.symm
        have hfm₂ := hpair.2
        have hfindr : s.records.find?
            (fun r => r.content_key = contentKey B') = some r0 :=
          find?_of_filter_cons hkr
        have hr0mem : r0 ∈ s.records := List.mem_of_find?_eq_some hfindr
        rw [uploadFile_some hfind]
        constructor
        · refine Or.inr
            ⟨incRef blob, r0,
             rest ++
               [{ id := s.next_id, original_filename := n, file_type := t,
                  size := blob.byte_size, uploaded_at := s.clock,
                  content_key := contentKey B', is_duplicate := true,
                  original_file := (s.records.find?
                    (fun r => r.content_key = contentKey B')).map
                      FileRecord.id }],
             ?_, ?_, ?_, hdup, ?_⟩
          · dsimp only
            simp only [keyBlobs, hbump, List.filter_append, hfm₁]
            rw [List.filter_cons_of_pos (by simp [incRef, hpb]), hfm₂]
            simp
          · dsimp only
            simp only [keyRecords, List.filter_append]
            rw [show s.records.filter
              (fun r => decide (r.content_key = contentKey B')) = r0 :: rest
              from hkr]
            simp
          · subst hblob₀
            simp only [incRef, List.length_append, List.length_singleton]
            omega
          · intro r hrm
            rcases List.mem_append.mp hrm with h1 | h1
            · exact hrest r h1
            · rcases List.mem_singleton.mp h1 with rfl
              refine ⟨rfl, ?_, ?_⟩
              · rw [hfindr]; rfl
              · exact hs.times_lt r0 hr0mem
        · dsimp only
          simp only [keyRecords, List.filter_append]
          rw [show s.records.filter
            (fun r => decide (r.content_key = contentKey B')) = r0 :: rest
            from hkr]
          simp
  · -- uploading different content leaves the shape for B untouched
    have hkk : contentKey B' ≠ contentKey B := fun h => hBB h
    cases hfind : s.blobs.find? (fun b => b.content_key = contentKey B') with
    | none =>
      have hrec2 : keyRecords (contentKey B) (uploadFile n t B' s).1 =
          keyRecords (contentKey B) s := by
        rw [uploadFile_none hfind]
        dsimp only
        unfold keyRecords
        rw [List.filter_append,
          List.filter_cons_of_neg (by simpa using hkk)]
        simp
      have hblob2 : keyBlobs (contentKey B) (uploadFile n t B' s).1 =
          keyBlobs (contentKey B) s := by
        rw [uploadFile_none hfind]
        dsimp only
        unfold keyBlobs
        rw [List.filter_append,
          List.filter_cons_of_neg (by simpa using hkk)]
        simp
      constructor
      · unfold DedupState
        rw [hrec2, hblob2]
        exact hd
      · rw [hrec2, if_neg hBB]
        omega
    | some blob₂ =>
      obtain ⟨m₁, m₂, hdec, hm₁⟩ := find?_decomp hfind
      have hm₁' : ∀ x ∈ m₁, x.content_key ≠ contentKey B' := fun x hx =>
        of_decide_eq_false (hm₁ x hx)
      have hpb : blob₂.content_key = contentKey B' := by
        simpa using List.find?_some hfind
      have hbump : bumpKey (contentKey B') s.blobs =
          m₁ ++ incRef blob₂ :: m₂ := by
        rw [hdec]; exact bumpKey_append_first _ _ _ _ hm₁' hpb
      have hrec2 : keyRecords (contentKey B) (uploadFile n t B' s).1 =
          keyRecords (contentKey B) s := by
        rw [uploadFile_some hfind]
        dsimp only
        unfold keyRecords
        rw [List.filter_append,
          List.filter_cons_of_neg (by simpa using hkk)]
        simp
      have hneg2 : ¬ (decide (blob₂.content_key = contentKey B) = true) := by
        simp only [decide_eq_true_eq]
        rw [hpb]; exact hkk
      have hneg1 : ¬ (decide ((incRef blob₂).content_key = contentKey B) = true) := by
        simp only [incRef, decide_eq_true_eq]
        rw [hpb]; exact hkk
      have hblob2 : keyBlobs (contentKey B) (uploadFile n t B' s).1 =
          keyBlobs (contentKey B) s := by
        rw [uploadFile_some hfind]
        dsimp only
        unfold keyBlobs
        rw [hbump, hdec, List.filter_append, List.filter_append,
          @List.filter_cons_of_neg _
            (fun b => decide (b.content_key = contentKey B)) _ m₂ hneg1,
          @List.filter_cons_of_neg _
            (fun b => decide (b.content_key = contentKey B)) _ m₂ hneg2]
      constructor
      · unfold DedupState
        rw [hrec2, hblob2]
        exact hd
      · rw [hrec2, if_neg hBB]
        omega

/-- Run uploads starting from an arbitrary state. -/
def runUploadsFrom (us : List Upload) (s : Catalog) : Catalog :=
  us.foldl (fun t u => (uploadFile u.1 u.2.1 u.2.2 t).1) s

theorem runUploads_eq (us : List Upload) :
    runUploads us = runUploadsFrom us initCatalog := by
  unfold runUploads runOps runUploadsFrom
  rw [List.foldl_map]
  rfl

theorem inv_runUploadsFrom (us : List Upload) :
    ∀ s, StoreInv s → StoreInv (runUploadsFrom us s) := by
  induction us with
  | nil => intro s hs; exact hs
  | cons u us ih =>
    intro s hs
    exact ih _ (inv_upload hs u.1 u.2.1 u.2.2)

theorem dedup_fold {B : Bytes} (us : List Upload) :
    ∀ s, StoreInv s → DedupState B s →
      DedupState B (runUploadsFrom us s) ∧
      (keyRecords (contentKey B) (runUploadsFrom us s)).length =
        (keyRecords (contentKey B) s).length +
          (us.filter fun u => u.2.2 = B).length := by
  induction us with
  | nil => intro s hs hd; exact ⟨hd, by simp [runUploadsFrom]⟩
  | cons u us ih =>
    intro s hs hd
    have hstep := dedup_step hs hd u.1 u.2.1 u.2.2
    have hinv2 := inv_upload hs u.1 u.2.1 u.2.2
    have hrest := ih _ hinv2 hstep.1
    refine ⟨hrest.1, ?_⟩
    rw [show runUploadsFrom (u :: us) s =
      runUploadsFrom us ((uploadFile u.1 u.2.1 u.2.2 s).1) from rfl]
    rw [hrest.2, hstep.2]
    by_cases hu : u.2.2 = B
    · rw [@List.filter_cons_of_pos _ (fun v => decide (v.2.2 = B)) u us
          (by simp [hu]),
        if_pos hu, List.length_cons]
      omega
    · rw [@List.filter_cons_of_neg _ (fun v => decide (v.2.2 = B)) u us
          (by simp [hu]),
        if_neg hu]
      omega

/-- C1: over any upload-only history, the uploads of one byte content share
exactly one ContentBlob whose `ref_count` equals their number; the records
with that content key appear in upload order, the first is not a duplicate,
and every later one is a duplicate whose `original_file` is the id of the
first (earliest-uploaded) record, which carries the same content key and a
strictly earlier `uploaded_at`. -/
theorem c1_dedup_correct (us : List Upload) (B : Bytes)
    (h : 0 < (us.filter fun u => u.2.2 = B).length) :
    ∃ blob r0 rest,
      keyBlobs (contentKey B) (runUploads us) = [blob] ∧
      keyRecords (contentKey B) (runUploads us) = r0 :: rest ∧
      blob.ref_count = (us.filter fun u => u.2.2 = B).length ∧
      blob.ref_count = rest.length + 1 ∧
      r0.is_duplicate = false ∧
      r0.content_key = contentKey B ∧
      ∀ r ∈ rest, r.is_duplicate = true ∧ r.original_file = some r0.id ∧
        r.content_key = contentKey B ∧ r0.uploaded_at < r.uploaded_at := by
  have hinit : DedupState B initCatalog := Or.inl ⟨rfl, rfl⟩
  have hfold := dedup_fold us initCatalog inv_init hinit
  rw [← runUploads_eq] at hfold
  have hlen := hfold.2
  rcases hfold.1 with ⟨hr, hb⟩ | ⟨blob, r0, rest, hkb, hkr, hrc, hdup, hrest⟩
  · exfalso
    rw [hr] at hlen
    simp [keyRecords, initCatalog] at hlen
    omega
  · have hcount : rest.length + 1 = (us.filter fun u => u.2.2 = B).length := by
      rw [hkr] at hlen
      simp only [List.length_cons] at hlen
      have : (keyRecords (contentKey B) initCatalog).length = 0 := rfl
      omega
    have hr0key : r0.content_key = contentKey B := by
      have : r0 ∈ keyRecords (contentKey B) (runUploads us) := by
        rw [hkr]; exact List.mem_cons_self _ _
      simpa using (List.mem_filter.mp this).2
    refine ⟨blob, r0, rest, hkb, hkr, by omega, hrc, hdup, hr0key, ?_⟩
    intro r hrm
    have hrkey : r.content_key = contentKey B := by
      have : r ∈ keyRecords (contentKey B) (runUploads us) := by
        rw [hkr]; exact List.mem_cons_of_mem _ hrm
      simpa using (List.mem_filter.mp this).2
    obtain ⟨h1, h2, h3⟩ := hrest r hrm
    exact ⟨h1, h2, hrkey, h3⟩

theorem two_uploads_dedup {s : Catalog} (hs : StoreInv s) (B : Bytes)
    (hd : DedupState B s)
    (hrecnil : keyRecords (contentKey B) s = [])
    (n₁ t₁ n₂ t₂ : String) :
    (keyBlobs (contentKey B)
        (uploadFile n₂ t₂ B (uploadFile n₁ t₁ B s).1).1).length = 1 ∧
    (∀ b ∈ (uploadFile n₂ t₂ B (uploadFile n₁ t₁ B s).1).1.blobs,
      b.content_key = contentKey B → b.ref_count = 2) ∧
    (keyRecords (contentKey B)
        (uploadFile n₂ t₂ B (uploadFile n₁ t₁ B s).1).1).length = 2 ∧
    ((keyRecords (contentKey B)
        (uploadFile n₂ t₂ B (uploadFile n₁ t₁ B s).1).1).filter
      (fun r => r.is_duplicate)).length = 1 := by
  have step1 := dedup_step hs hd n₁ t₁ B
  have inv1 := inv_upload hs n₁ t₁ B
  have step2 := dedup_step inv1 step1.1 n₂ t₂ B
  have hlen : (keyRecords (contentKey B)
      (uploadFile n₂ t₂ B (uploadFile n₁ t₁ B s).1).1).length = 2 := by
    rw [step2.2, step1.2, hrecnil]
    simp
  rcases step2.1 with ⟨hr, hb⟩ | ⟨blob, r0, rest, hkb, hkr, hrc, hdup, hrest⟩
  · rw [hr] at hlen; simp at hlen
  · rw [hkr] at hlen
    simp only [List.length_cons] at hlen
    have hrest1 : rest.length = 1 := by omega
    obtain ⟨r1, hr1⟩ := List.length_eq_one.mp hrest1
    subst hr1
    obtain ⟨hd1, hd2, hd3⟩ := hrest r1 (List.mem_singleton.mpr rfl)
    refine ⟨by rw [hkb]; rfl, ?_, by rw [hkr]; rfl, ?_⟩
    · intro b hbmem hbk
      have hmem : b ∈ keyBlobs (contentKey B)
          (uploadFile n₂ t₂ B (uploadFile n₁ t₁ B s).1).1 :=
        List.mem_filter.mpr ⟨hbmem, by rw [hbk]; simp⟩
      rw [hkb] at hmem
      rcases List.mem_singleton.mp hmem with rfl
      omega
    · rw [hkr,
        @List.filter_cons_of_neg _ (fun r => r.is_duplicate) r0 [r1]
          (by simp [hdup]),
        @List.filter_cons_of_pos _ (fun r => r.is_duplicate) r1 []
          (by simp [hd1])]
      rfl

/-- Modelled from the spec (section 5): content-key resolution and blob
creation or ref-count increment are atomic per content key, so a concurrent
execution of two uploads is observationally one of the two serial orders;
both serializations are collected here. -/
def concurrentUploadOutcomes (u₁ u₂ : Upload) (s : Catalog) : List Catalog :=
  [(uploadFile u₂.1 u₂.2.1 u₂.2.2 (uploadFile u₁.1 u₁.2.1 u₁.2.2 s).1).1,
   (uploadFile u₁.1 u₁.2.1 u₁.2.2 (uploadFile u₂.1 u₂.2.1 u₂.2.2 s).1).1]

/-- C8: from any reachable state not yet holding a given content, two
concurrent uploads of that byte-identical content — modelled, per the
spec's per-key atomicity requirement, as the two possible serializations —
always leave exactly one ContentBlob for it with `ref_count` exactly 2 and
exactly two FileRecords with that key, exactly one marked duplicate. -/
theorem c8_concurrent_uploads (ops : List VaultOp) (u₁ u₂ : Upload)
    (B : Bytes) (h₁ : u₁.2.2 = B) (h₂ : u₂.2.2 = B)
    (habs : keyBlobs (contentKey B) (runOps ops) = []) :
    ∀ s2 ∈ concurrentUploadOutcomes u₁ u₂ (runOps ops),
      (keyBlobs (contentKey B) s2).length = 1 ∧
      (∀ b ∈ s2.blobs, b.content_key = contentKey B → b.ref_count = 2) ∧
      (keyRecords (contentKey B) s2).length = 2 ∧
      ((keyRecords (contentKey B) s2).filter
        (fun r => r.is_duplicate)).length = 1 := by
  have hs := inv_runOps ops
  have hrecnil : keyRecords (contentKey B) (runOps ops) = [] := by
    rw [keyRecords, List.filter_eq_nil_iff]
    intro r hr hk
    obtain ⟨b, hb, hbk⟩ := hs.rec_blob r hr
    have hmm : b ∈ keyBlobs (contentKey B) (runOps ops) :=
      List.mem_filter.mpr ⟨hb, by rw [hbk]; exact hk⟩
    rw [habs] at hmm
    exact List.not_mem_nil b hmm
  have hd : DedupState B (runOps ops) := Or.inl ⟨hrecnil, habs⟩
  intro s2 hs2
  rcases List.mem_cons.mp hs2 with rfl | hs2
  · rw [h₁, h₂]
    exact two_uploads_dedup hs B hd hrecnil u₁.1 u₁.2.1 u₂.1 u₂.2.1
  · rcases List.mem_cons.mp hs2 with rfl | hs2
    · rw [h₁, h₂]
      exact two_uploads_dedup hs B hd hrecnil u₂.1 u₂.2.1 u₁.1 u₁.2.1
    · exact absurd hs2 (List.not_mem_nil s2)

/-! ### Client embeddings: search request plumbing and formatBytes -/

/-- A JavaScript value as relevant to the search request plumbing:
undefined, a string, a number, or NaN (the result of a failed parseInt). -/
inductive JSVal where
  | undef
  | str (s : String)
  | num (n : Int)
  | nan
  deriving Repr, DecidableEq

/-- Model of JS parseInt(s, 10): skip leading spaces, an optional sign, then
a maximal run of decimal digits; no digits yields failure (NaN). -/
def parseIntCore (s : String) : Option Int :=
  let cs := s.toList.dropWhile (fun c => c = ' ')
  let signAndRest : Int × List Char :=
    match cs with
    | c :: rest =>
      if c = '-' then (-1, rest)
      else if c = '+' then (1, rest) else (1, cs)
    | [] => (1, [])
  let ds := signAndRest.2.takeWhile Char.isDigit
  if ds.isEmpty then none
  else some (signAndRest.1 *
    ((ds.foldl (fun a c => a * 10 + (c.toNat - 48)) 0 : Nat) : Int))

/-- parseInt(s, 10) as a JS value: a number on success, NaN on failure. -/
def parseIntBase10 (s : String) : JSVal :=
  match parseIntCore s with
  | none => JSVal.nan
  | some n => JSVal.num n

/-- The six search form fields of FileSearchFilter (component state,
FileSearchFilter.tsx lines 11-16). -/
structure SearchFormState where
  filename : String
  fileType : String
  sizeMin : String
  sizeMax : String
  dateFrom : String
  dateTo : String
  deriving Repr, DecidableEq

/-- Embedding of handleSearch (FileSearchFilter.tsx lines 18-29) as the
entry list of the params object it builds, in property-insertion order:
`field || undefined` maps an empty string to undefined, and the size fields
are parsed with parseInt(_, 10) exactly when non-empty. -/
def handleSearchParams (f : SearchFormState) : List (String × JSVal) :=
  [("filename",
    if f.filename = "" then JSVal.undef else JSVal.str f.filename),
   ("file_type",
    if f.fileType = "" then JSVal.undef else JSVal.str f.fileType),
   ("size_min",
    if f.sizeMin = "" then JSVal.undef else parseIntBase10 f.sizeMin),
   ("size_max",
    if f.sizeMax = "" then JSVal.undef else parseIntBase10 f.sizeMax),
   ("date_from",
    if f.dateFrom = "" then JSVal.undef else JSVal.str f.dateFrom),
   ("date_to",
    if f.dateTo = "" then JSVal.undef else JSVal.str f.dateTo)]

/-- Embedding of the filtering in fileService.searchFiles
(src/unnamed/part_000 lines 60-71): every entry whose value is undefined or
the empty string is dropped before the request is issued. -/
def filteredParams (entries : List (String × JSVal)) : List (String × JSVal) :=
  entries.filter fun kv => kv.2 != JSVal.undef && kv.2 != JSVal.str ""

theorem parseIntBase10_kept (s : String) :
    (parseIntBase10 s != JSVal.undef && parseIntBase10 s != JSVal.str "") =
      true := by
  unfold parseIntBase10
  cases parseIntCore s <;> simp

/-- C9: an entry survives into the request iff its value is neither
undefined nor the empty string, and consequently, for a request built by
handleSearch, exactly the keys of the non-empty form fields are sent. -/
theorem c9_request_keys (f : SearchFormState) (k : String) (v : JSVal) :
    ((k, v) ∈ filteredParams (handleSearchParams f) ↔
      (k, v) ∈ handleSearchParams f ∧ v ≠ JSVal.undef ∧ v ≠ JSVal.str "") ∧
    (filteredParams (handleSearchParams f)).map Prod.fst =
      (if f.filename = "" then [] else ["filename"]) ++
      (if f.fileType = "" then [] else ["file_type"]) ++
      (if f.sizeMin = "" then [] else ["size_min"]) ++
      (if f.sizeMax = "" then [] else ["size_max"]) ++
      (if f.dateFrom = "" then [] else ["date_from"]) ++
      (if f.dateTo = "" then [] else ["date_to"]) := by
  constructor
  · simp [filteredParams, List.mem_filter, bne_iff_ne, Bool.and_eq_true,
      and_assoc]
  · by_cases h1 : f.filename = "" <;> by_cases h2 : f.fileType = "" <;>
      by_cases h3 : f.sizeMin = "" <;> by_cases h4 : f.sizeMax = "" <;>
      by_cases h5 : f.dateFrom = "" <;> by_cases h6 : f.dateTo = "" <;>
      simp [filteredParams, handleSearchParams, h1, h2, h3, h4, h5, h6,
        parseIntBase10_kept]

/-- The unit names array of formatBytes (StorageStats.tsx line 8). -/
def formatBytesSizes : List String :=
  ["Bytes", "KB", "MB", "GB", "TB", "PB", "EB", "ZB", "YB"]

/-- Strip trailing zero characters; models parseFloat(x.toFixed(dm))
dropping trailing fractional zeros. -/
def stripTrailingZeros (cs : List Char) : List Char :=
  (cs.reverse.dropWhile (fun c => c = '0')).reverse

/-- Decimal rendering of bytes / 1024^i to dm places, rounding half up;
models the source's parseFloat((bytes / Math.pow(k, i)).toFixed(dm)) with
exact rational arithmetic. -/
def mantissaString (bytes i dm : Nat) : String :=
  let denom := 1024 ^ i
  let scaled := (2 * (bytes * 10 ^ dm) + denom) / (2 * denom)
  let ip := scaled / 10 ^ dm
  let fp := scaled % 10 ^ dm
  let fracRaw := toString fp
  let frac := stripTrailingZeros
    (List.replicate (dm - fracRaw.length) '0' ++ fracRaw.toList)
  if frac.isEmpty then toString ip
  else toString ip ++ "." ++ String.mk frac

/-- Embedding of formatBytes (StorageStats.tsx lines 4-11): zero input
short-circuits to "0 Bytes" before the unit computation; otherwise the unit
index is ⌊log base 1024 of bytes⌋ and selects from the sizes array
(out-of-range indexing modelled as the JS undefined), with the numeric part
modelled by `mantissaString`. -/
def formatBytes (bytes : Nat) (decimals : Int) : String :=
  if bytes = 0 then "0 Bytes"
  else
    let dm := if decimals < 0 then 0 else decimals.toNat
    let i := Nat.log 1024 bytes
    mantissaString bytes i dm ++ " " ++ formatBytesSizes.getD i "undefined"

/-- C10: formatBytes returns "0 Bytes" for input 0 whatever the decimals
argument — the zero guard fires before the logarithm-based unit computation
— and for every positive input the computed unit index selects the unit
from the fixed sizes array. -/
theorem c10_formatBytes_shape :
    (∀ d : Int, formatBytes 0 d = "0 Bytes") ∧
    (∀ (bytes : Nat) (d : Int), 0 < bytes →
      ∃ m : String, formatBytes bytes d =
        m ++ " " ++ formatBytesSizes.getD (Nat.log 1024 bytes) "undefined") := by
  constructor
  · intro d; rfl
  · intro bytes d hpos
    refine ⟨mantissaString bytes (Nat.log 1024 bytes)
      (if d < 0 then 0 else d.toNat), ?_⟩
    rw [formatBytes, if_neg (by omega)]

/-- Witness for C10 at bytes 0 and 2048 with decimals 2. -/
theorem c10_formatBytes_shape_witness :
    formatBytes 0 2 = "0 Bytes" ∧
    ∃ m : String, formatBytes 2048 2 =
      m ++ " " ++ formatBytesSizes.getD (Nat.log 1024 2048) "undefined" :=
  ⟨c10_formatBytes_shape.1 2,
   c10_formatBytes_shape.2 2048 2 (by decide)⟩

/-- Witness for C1: two uploads of identical bytes from the empty store. -/
theorem c1_dedup_correct_witness :
    ∃ blob r0 rest,
      keyBlobs (contentKey [1, 2])
        (runUploads [("a", "t", [1, 2]), ("b", "t", [1, 2])]) = [blob] ∧
      keyRecords (contentKey [1, 2])
        (runUploads [("a", "t", [1, 2]), ("b", "t", [1, 2])]) = r0 :: rest ∧
      blob.ref_count = (([("a", "t", [1, 2]), ("b", "t", [1, 2])] :
        List Upload).filter fun u => u.2.2 = [1, 2]).length ∧
      blob.ref_count = rest.length + 1 ∧
      r0.is_duplicate = false ∧
      r0.content_key = contentKey [1, 2] ∧
      ∀ r ∈ rest, r.is_duplicate = true ∧ r.original_file = some r0.id ∧
        r.content_key = contentKey [1, 2] ∧ r0.uploaded_at < r.uploaded_at :=
  c1_dedup_correct [("a", "t", [1, 2]), ("b", "t", [1, 2])] [1, 2] (by decide)

/-- Witness for C6: deleting a nonexistent id fails with NotFound. -/
theorem c6_delete_semantics_witness :
    deleteFile 5 (runOps [VaultOp.upload "a" "t" [1]]) =
      Except.error VaultError.notFound :=
  (c6_delete_semantics [VaultOp.upload "a" "t" [1]] 5).1.mpr (by decide)

/-- Witness for C8: one serialization of two concurrent uploads of the same
bytes from the empty store. -/
theorem c8_concurrent_uploads_witness :
    (keyBlobs (contentKey [7])
      (uploadFile "b" "t" [7]
        (uploadFile "a" "t" [7] (runOps [])).1).1).length = 1 ∧
    (∀ b ∈ (uploadFile "b" "t" [7]
        (uploadFile "a" "t" [7] (runOps [])).1).1.blobs,
      b.content_key = contentKey [7] → b.ref_count = 2) ∧
    (keyRecords (contentKey [7])
      (uploadFile "b" "t" [7]
        (uploadFile "a" "t" [7] (runOps [])).1).1).length = 2 ∧
    ((keyRecords (contentKey [7])
      (uploadFile "b" "t" [7]
        (uploadFile "a" "t" [7] (runOps [])).1).1).filter
      (fun r => r.is_duplicate)).length = 1 :=
  c8_concurrent_uploads [] ("a", "t", [7]) ("b", "t", [7]) [7] rfl rfl
    (by decide) _ (by decide)
